import Mathlib

/-!
Shallow embedding of `src/drawing/text.rs` (functions `draw_text_mut`, `calc_text`,
`draw_text`) together with the behaviour of the external collaborators they call
(the rusttype font and the imageproc `Canvas`/`Rect`/`weighted_sum` interfaces).
`f32` values are modelled as exact rationals, `i32` as `Int`, `u32` as `Nat`.
-/

namespace ImageprocText

/-- Font scale factors on the x and y axis (rusttype `Scale`); `f32` fields modelled
as rationals. -/
structure Scale where
  x : ℚ
  y : ℚ
deriving DecidableEq

/-- Integer pixel bounding box of a positioned glyph (rusttype `Rect<i32>` as returned
by `pixel_bounding_box()`); only `min` is read by the code under verification. -/
structure GlyphBBox where
  minX : ℤ
  minY : ℤ
  maxX : ℤ
  maxY : ℤ
deriving DecidableEq

/-- One coverage sample reported by the rasterizer callback `g.draw(|gx, gy, gv| ...)`:
glyph-local `u32` pixel coordinates and an `f32` coverage value. -/
structure Sample where
  gx : ℕ
  gy : ℕ
  gv : ℚ
deriving DecidableEq

/-- The font collaborator (rusttype `Font`), abstracted to exactly the queries the
code performs: the ascent from `v_metrics(scale)`, per-character glyph identifiers,
the advance width of a scaled glyph, pair kerning between two glyph identifiers at a
scale, and the pixel bounding box and coverage samples of a positioned glyph (both of
which depend on the glyph's character, the scale, and the position it was given). -/
structure Font where
  ascent : Scale → ℚ
  glyphId : Char → ℕ
  advance_width : Scale → Char → ℚ
  pair_kerning : Scale → ℕ → ℕ → ℚ
  pixel_bounding_box : Scale → Char → ℚ × ℚ → Option GlyphBBox
  coverage : Scale → Char → ℚ × ℚ → List Sample

/-- A glyph bound to an absolute position (rusttype `PositionedGlyph`): the character
it came from together with the point passed to `positioned`. -/
structure PositionedGlyph where
  ch : Char
  pos : ℚ × ℚ
deriving DecidableEq

/-- Rust `f32::round`: round half away from zero, on exact rationals. -/
def rustRound (q : ℚ) : ℚ := if 0 ≤ q then ((⌊q + 1/2⌋ : ℤ) : ℚ) else ((⌈q - 1/2⌉ : ℤ) : ℚ)

/-- The glyph-positioning scan inside `draw_text_mut` (text.rs lines 29-45): state is
`(last, x)`; for each character the increment is `advance_width` plus the pair kerning
against the previous glyph, rounded as a whole; the glyph is positioned at
`offset + vector(x, 0) = (x, ascent)` before the increment is added. -/
def drawLayoutAux (font : Font) (scale : Scale) (asc : ℚ) :
    Option ℕ → ℚ → List Char → List PositionedGlyph
  | _, _, [] => []
  | last, xacc, c :: cs =>
    let w := font.advance_width scale c +
      (match last with
       | some l => font.pair_kerning scale l (font.glyphId c)
       | none => 0)
    let w := rustRound w
    let next : PositionedGlyph := ⟨c, (xacc, asc)⟩
    next :: drawLayoutAux font scale asc (some (font.glyphId c)) (xacc + w) cs

/-- The glyph sequence built by `draw_text_mut`: the scan started with `(None, 0.0)`,
with vertical offset `v_metrics(scale).ascent`. -/
def drawLayout (font : Font) (scale : Scale) (text : List Char) : List PositionedGlyph :=
  drawLayoutAux font scale (font.ascent scale) none 0 text

/-- Models the rusttype collaborator's `Font::layout` iterator, called by `calc_text`
(text.rs line 86): for each character the kerning against the previous glyph is added
to the caret first, the glyph is positioned at `(start.x + caret, start.y)`, and the
advance width is added afterwards; no rounding anywhere. -/
def calcLayoutAux (font : Font) (scale : Scale) (start : ℚ × ℚ) :
    Option ℕ → ℚ → List Char → List PositionedGlyph
  | _, _, [] => []
  | last, caret, c :: cs =>
    let caret := caret +
      (match last with
       | some l => font.pair_kerning scale l (font.glyphId c)
       | none => 0)
    let g : PositionedGlyph := ⟨c, (start.1 + caret, start.2)⟩
    g :: calcLayoutAux font scale start (some (font.glyphId c))
      (caret + font.advance_width scale c) cs

/-- The glyph sequence built by `calc_text`: `font.layout(text, scale, offset)` with
`offset = point(0.0, ascent)`. -/
def calcLayout (font : Font) (scale : Scale) (text : List Char) : List PositionedGlyph :=
  calcLayoutAux font scale (0, font.ascent scale) none 0 text

/-- Pixel values: the list of subpixel channels, each an `f32` view of the channel
modelled as a rational. -/
abbrev Px := List ℚ

/-- The surface collaborator (imageproc `Canvas`): width and height in pixels and the
current pixel at each coordinate. -/
structure Canvas where
  width : ℕ
  height : ℕ
  pixel : ℕ → ℕ → Px

/-- Modelled from the spec: the surface collaborator's set-pixel operation
(`Canvas::draw_pixel`, crate `drawing` module, not under `src/`): "set-pixel(x,y,value)
→ mutate in place". -/
def Canvas.draw_pixel (c : Canvas) (px py : ℕ) (v : Px) : Canvas :=
  ⟨c.width, c.height, fun a b => if a = px ∧ b = py then v else c.pixel a b⟩

/-- Modelled from the spec: per-channel clamping into the valid subpixel range
`[lo, hi]` ("must clamp each resulting channel back into the valid subpixel range
after interpolation"). -/
def clampCh (lo hi v : ℚ) : ℚ := min hi (max lo v)

/-- Modelled from the spec: `weighted_sum` from `crate::pixelops` (not under `src/`):
"compute a new pixel as the linear interpolation `current * (1 - coverage) +
requested_color * coverage` (component-wise, using the surface's native numeric range —
must clamp each resulting channel back into the valid subpixel range after
interpolation)". -/
def weighted_sum (lo hi : ℚ) (p q : Px) (pw qw : ℚ) : Px :=
  List.zipWith (fun a b => clampCh lo hi (a * pw + b * qw)) p q

/-- State threaded through the compositor's traversal: the surface plus the trace of
coordinates at which `get_pixel`/`draw_pixel` were performed (each guarded access
appends one entry). -/
structure DrawState where
  canvas : Canvas
  accesses : List (ℕ × ℕ)

/-- One step of the compositor's per-pixel callback (text.rs lines 49-64): translate
the glyph-local sample by the bounding-box minimum and the caller origin, bounds-check,
and only then read, blend with `weighted_sum`, and write back. -/
def drawSampleStep (lo hi : ℚ) (color : Px) (x y : ℕ) (bb : GlyphBBox)
    (st : DrawState) (s : Sample) : DrawState :=
  let gx := (s.gx : ℤ) + bb.minX
  let gy := (s.gy : ℤ) + bb.minY
  let image_x := gx + (x : ℤ)
  let image_y := gy + (y : ℤ)
  let image_width := (st.canvas.width : ℤ)
  let image_height := (st.canvas.height : ℤ)
  if 0 ≤ image_x ∧ image_x < image_width ∧ 0 ≤ image_y ∧ image_y < image_height then
    let pixel := st.canvas.pixel image_x.toNat image_y.toNat
    let weighted_color := weighted_sum lo hi pixel color (1 - s.gv) s.gv
    ⟨st.canvas.draw_pixel image_x.toNat image_y.toNat weighted_color,
      st.accesses ++ [(image_x.toNat, image_y.toNat)]⟩
  else st

/-- The compositor's per-glyph step (text.rs lines 47-66): glyphs without a pixel
bounding box are skipped; otherwise every coverage sample is visited in order. -/
def drawGlyphStep (lo hi : ℚ) (font : Font) (scale : Scale) (color : Px) (x y : ℕ)
    (st : DrawState) (g : PositionedGlyph) : DrawState :=
  match font.pixel_bounding_box scale g.ch g.pos with
  | some bb => (font.coverage scale g.ch g.pos).foldl (drawSampleStep lo hi color x y bb) st
  | none => st

/-- `draw_text_mut` instrumented with its access trace: layout with the rounding scan,
then the nested glyph/sample traversal. -/
def drawTextMutTraced (lo hi : ℚ) (font : Font) (color : Px) (x y : ℕ) (scale : Scale)
    (text : List Char) (canvas : Canvas) : DrawState :=
  (drawLayout font scale text).foldl (drawGlyphStep lo hi font scale color x y) ⟨canvas, []⟩

/-- `draw_text_mut` (text.rs lines 13-67): the resulting surface. -/
def draw_text_mut (lo hi : ℚ) (font : Font) (color : Px) (x y : ℕ) (scale : Scale)
    (text : List Char) (canvas : Canvas) : Canvas :=
  (drawTextMutTraced lo hi font color x y scale text canvas).canvas

/-- The running min/max record of `calc_text` (its local `DrawResult` struct, text.rs
lines 91-103): `x`/`y` track minima, `width`/`height` track maxima. -/
structure DrawResult where
  x : ℤ
  y : ℤ
  width : ℤ
  height : ℤ
deriving DecidableEq

/-- One step of the bounds calculator's per-pixel callback (text.rs lines 107-133):
the same translation and bounds check as the compositor, then, for samples with
coverage strictly above zero, update the four running extrema. -/
def calcSampleStep (x y : ℕ) (W H : ℤ) (bb : GlyphBBox)
    (r : DrawResult) (s : Sample) : DrawResult :=
  let gx := (s.gx : ℤ) + bb.minX
  let gy := (s.gy : ℤ) + bb.minY
  let image_x := gx + (x : ℤ)
  let image_y := gy + (y : ℤ)
  if 0 ≤ image_x ∧ image_x < W ∧ 0 ≤ image_y ∧ image_y < H then
    if 0 < s.gv then
      ⟨if image_x < r.x then image_x else r.x,
       if image_y < r.y then image_y else r.y,
       if r.width < image_x then image_x else r.width,
       if r.height < image_y then image_y else r.height⟩
    else r
  else r

/-- The bounds calculator's per-glyph step (text.rs lines 105-135). -/
def calcGlyphStep (font : Font) (scale : Scale) (x y : ℕ) (W H : ℤ)
    (r : DrawResult) (g : PositionedGlyph) : DrawResult :=
  match font.pixel_bounding_box scale g.ch g.pos with
  | some bb => (font.coverage scale g.ch g.pos).foldl (calcSampleStep x y W H bb) r
  | none => r

/-- Modelled from the spec: the result rectangle type (`crate::rect::Rect`, not under
`src/`): "an axis-aligned rectangle in surface coordinates", anchored at a corner with
a size. -/
structure Rect where
  x : ℤ
  y : ℤ
  width : ℕ
  height : ℕ
deriving DecidableEq

/-- Modelled from the spec: the `Rect::at(x, y)` constructor stage (not under `src/`),
recording the anchor corner. -/
structure RectAnchor where
  x : ℤ
  y : ℤ
deriving DecidableEq

/-- Modelled from the spec: `Rect::at`. -/
def Rect.at (x y : ℤ) : RectAnchor := ⟨x, y⟩

/-- Modelled from the spec: `RectAnchor.of_size`, attaching the size to the anchor. -/
def RectAnchor.of_size (a : RectAnchor) (w h : ℕ) : Rect := ⟨a.x, a.y, w, h⟩

/-- `calc_text` (text.rs lines 70-144): rusttype layout, the min/max traversal from
the record initialised to `(width, height, 0, 0)`, and the final guarded rectangle
construction; the `as u32` casts are modelled by `Int.toNat`. -/
def calc_text (font : Font) (x y : ℕ) (scale : Scale) (text : List Char)
    (canvas : Canvas) : Option Rect :=
  let glyphs := calcLayout font scale text
  let image_width := (canvas.width : ℤ)
  let image_height := (canvas.height : ℤ)
  let result : DrawResult := ⟨image_width, image_height, 0, 0⟩
  let result := glyphs.foldl (calcGlyphStep font scale x y image_width image_height) result
  if result.width > 0 ∧ result.height > 0 ∧ result.x < image_width ∧ result.y < image_height then
    some ((Rect.at result.x result.y).of_size (result.width - result.x).toNat
      (result.height - result.y).toNat)
  else none

/-- The translated samples a single glyph contributes to either traversal: for each
coverage sample `(gx, gy, gv)`, the absolute surface coordinate
`(gx + bb.min.x + x, gy + bb.min.y + y)` paired with the coverage, in callback order;
a glyph without a pixel bounding box contributes nothing. -/
def glyphVisits (font : Font) (scale : Scale) (x y : ℕ) (g : PositionedGlyph) :
    List (ℤ × ℤ × ℚ) :=
  match font.pixel_bounding_box scale g.ch g.pos with
  | some bb => (font.coverage scale g.ch g.pos).map
      (fun s => ((s.gx : ℤ) + bb.minX + (x : ℤ), ((s.gy : ℤ) + bb.minY + (y : ℤ), s.gv)))
  | none => []

/-- The full `(pixel, coverage)` enumeration of the compositor `draw_text_mut`: every
translated sample of every glyph of its (rounding) layout, in traversal order. -/
def drawVisits (font : Font) (scale : Scale) (x y : ℕ) (text : List Char) :
    List (ℤ × ℤ × ℚ) :=
  (drawLayout font scale text).flatMap (glyphVisits font scale x y)

/-- The full `(pixel, coverage)` enumeration of the bounds calculator `calc_text`:
every translated sample of every glyph of the rusttype layout, in traversal order. -/
def calcVisits (font : Font) (scale : Scale) (x y : ℕ) (text : List Char) :
    List (ℤ × ℤ × ℚ) :=
  (calcLayout font scale text).flatMap (glyphVisits font scale x y)

/-- Whether a translated sample passes the bounds check and has coverage strictly
above zero — exactly the samples that update `calc_text`'s running extrema. -/
def inBoundsPos (W H : ℤ) (v : ℤ × ℤ × ℚ) : Bool :=
  decide (0 ≤ v.1) && decide (v.1 < W) && decide (0 ≤ v.2.1) && decide (v.2.1 < H) &&
    decide (0 < v.2.2)

/-- Modelled from the spec: `ImageBuffer::new` of the image collaborator (not under
`src/`), a fresh surface of the given dimensions with every channel of every pixel
zero; `n` is the channel count of the pixel type. -/
def Image_new (w h n : ℕ) : Canvas := ⟨w, h, fun _ _ => List.replicate n 0⟩

/-- Modelled from the spec: `GenericImage::copy_from(src, 0, 0)` of the image
collaborator (not under `src/`): every pixel of `src` is copied into the destination
at the same coordinates. -/
def copy_from (dst src : Canvas) : Canvas :=
  ⟨dst.width, dst.height,
    fun a b => if a < src.width ∧ b < src.height then src.pixel a b else dst.pixel a b⟩

/-- `draw_text` (text.rs lines 147-165): allocate a fresh buffer of the input's
dimensions, copy the input into it, run `draw_text_mut` on the copy, and return it.
The first component is the final state of the `&mut` input reference (which the body
only reads), the second the returned image; `n` is the channel count. -/
def draw_text (n : ℕ) (lo hi : ℚ) (font : Font) (color : Px) (x y : ℕ) (scale : Scale)
    (text : List Char) (image : Canvas) : Canvas × Canvas :=
  let out := copy_from (Image_new image.width image.height n) image
  (image, draw_text_mut lo hi font color x y scale text out)

/-- Two canvases agree observably: same dimensions and the same pixel at every
in-range coordinate. -/
def CanvasEq (c d : Canvas) : Prop :=
  c.width = d.width ∧ c.height = d.height ∧
    ∀ a b, a < c.width → b < c.height → c.pixel a b = d.pixel a b

/-- The x-position sequence actually produced by the compositor's scan, written as an
explicit recurrence: the head position is emitted as is, and the next position adds
the rounded sum of the current character's advance width and its kerning against the
previous character — so the kerning of a pair shifts the glyph after the pair. -/
def amendedXPos (font : Font) (scale : Scale) : Option Char → ℚ → List Char → List ℚ
  | _, _, [] => []
  | prev, xp, c :: cs =>
    xp :: amendedXPos font scale (some c)
      (xp + rustRound (font.advance_width scale c +
        match prev with
        | some p => font.pair_kerning scale (font.glyphId p) (font.glyphId c)
        | none => 0)) cs

/-- A concrete font used to separate the two layout policies: every advance width is
`10`, the kerning between the glyphs of `a` and `b` is `3/5`, and nothing is
rasterized. -/
def fontK : Font where
  ascent := fun _ => 0
  glyphId := fun c => if c = 'b' then 98 else 97
  advance_width := fun _ _ => 10
  pair_kerning := fun _ a b => if a = 97 ∧ b = 98 then 3/5 else 0
  pixel_bounding_box := fun _ _ _ => none
  coverage := fun _ _ _ => []

/-- A unit scale. -/
def scale1 : Scale := ⟨1, 1⟩

lemma drawLayoutAux_length (font : Font) (scale : Scale) (asc : ℚ) (cs : List Char) :
    ∀ (last : Option ℕ) (xacc : ℚ),
      (drawLayoutAux font scale asc last xacc cs).length = cs.length := by
  induction cs with
  | nil => intro last xacc; rfl
  | cons c cs ih => intro last xacc; simp [drawLayoutAux, ih]

lemma calcLayoutAux_length (font : Font) (scale : Scale) (start : ℚ × ℚ)
    (cs : List Char) :
    ∀ (last : Option ℕ) (caret : ℚ),
      (calcLayoutAux font scale start last caret cs).length = cs.length := by
  induction cs with
  | nil => intro last caret; rfl
  | cons c cs ih => intro last caret; simp [calcLayoutAux, ih]

lemma drawLayoutAux_map_xpos (font : Font) (scale : Scale) (asc : ℚ) (cs : List Char) :
    ∀ (prev : Option Char) (xacc : ℚ),
      (drawLayoutAux font scale asc (prev.map font.glyphId) xacc cs).map
          (fun g => g.pos.1) =
        amendedXPos font scale prev xacc cs := by
  induction cs with
  | nil => intro prev xacc; rfl
  | cons c cs ih =>
    intro prev xacc
    cases prev with
    | none =>
      have h := ih (some c)
        (xacc + rustRound (font.advance_width scale c + 0))
      simpa [drawLayoutAux, amendedXPos] using h
    | some p =>
      have h := ih (some c)
        (xacc + rustRound (font.advance_width scale c +
          font.pair_kerning scale (font.glyphId p) (font.glyphId c)))
      simpa [drawLayoutAux, amendedXPos] using h

/-- The bounds calculator's per-sample update re-expressed on a translated sample
`(image_x, image_y, gv)`: the same bounds check, positivity check and extrema update
as `calcSampleStep`. -/
def visitStep (W H : ℤ) (r : DrawResult) (v : ℤ × ℤ × ℚ) : DrawResult :=
  if 0 ≤ v.1 ∧ v.1 < W ∧ 0 ≤ v.2.1 ∧ v.2.1 < H then
    if 0 < v.2.2 then
      ⟨if v.1 < r.x then v.1 else r.x,
       if v.2.1 < r.y then v.2.1 else r.y,
       if r.width < v.1 then v.1 else r.width,
       if r.height < v.2.1 then v.2.1 else r.height⟩
    else r
  else r

lemma calcSampleStep_eq_visitStep (x y : ℕ) (W H : ℤ) (bb : GlyphBBox)
    (r : DrawResult) (s : Sample) :
    calcSampleStep x y W H bb r s =
      visitStep W H r
        ((s.gx : ℤ) + bb.minX + (x : ℤ), ((s.gy : ℤ) + bb.minY + (y : ℤ), s.gv)) := rfl

lemma calcGlyphStep_eq_foldl_visits (font : Font) (scale : Scale) (x y : ℕ) (W H : ℤ)
    (r : DrawResult) (g : PositionedGlyph) :
    calcGlyphStep font scale x y W H r g =
      (glyphVisits font scale x y g).foldl (visitStep W H) r := by
  unfold calcGlyphStep glyphVisits
  cases font.pixel_bounding_box scale g.ch g.pos with
  | none => rfl
  | some bb => rw [List.foldl_map]; rfl

lemma foldl_calcGlyphStep_eq (font : Font) (scale : Scale) (x y : ℕ) (W H : ℤ)
    (gs : List PositionedGlyph) :
    ∀ r : DrawResult,
      gs.foldl (calcGlyphStep font scale x y W H) r =
        (gs.flatMap (glyphVisits font scale x y)).foldl (visitStep W H) r := by
  induction gs with
  | nil => intro r; rfl
  | cons g gs ih =>
    intro r
    rw [List.foldl_cons, ih, calcGlyphStep_eq_foldl_visits, List.flatMap_cons,
      List.foldl_append]

lemma visitStep_of_pos (W H : ℤ) (r : DrawResult) (v : ℤ × ℤ × ℚ)
    (h : inBoundsPos W H v = true) :
    visitStep W H r v =
      ⟨min r.x v.1, min r.y v.2.1, max r.width v.1, max r.height v.2.1⟩ := by
  simp only [inBoundsPos, Bool.and_eq_true, decide_eq_true_eq] at h
  obtain ⟨⟨⟨⟨h1, h2⟩, h3⟩, h4⟩, h5⟩ := h
  simp only [visitStep]
  rw [if_pos ⟨h1, h2, h3, h4⟩, if_pos h5]
  simp only [DrawResult.mk.injEq]
  refine ⟨?_, ?_, ?_, ?_⟩ <;> omega

lemma visitStep_of_neg (W H : ℤ) (r : DrawResult) (v : ℤ × ℤ × ℚ)
    (h : inBoundsPos W H v = false) :
    visitStep W H r v = r := by
  simp only [inBoundsPos, Bool.and_eq_false_iff, decide_eq_false_iff_not,
    Bool.and_eq_true, decide_eq_true_eq] at h
  simp only [visitStep]
  split
  · rename_i hb
    split
    · rename_i hgv
      exfalso
      rcases h with h | h
      · rcases h with h | h
        · rcases h with h | h
          · rcases h with h | h
            · exact h hb.1
            · exact h hb.2.1
          · exact h hb.2.2.1
        · exact h hb.2.2.2
      · exact h hgv
    · rfl
  · rfl

lemma foldl_min_le_init (l : List ℤ) : ∀ a : ℤ, l.foldl min a ≤ a := by
  induction l with
  | nil => intro a; exact le_refl a
  | cons b l ih => intro a; exact le_trans (ih (min a b)) (min_le_left a b)

lemma foldl_min_le_of_mem (l : List ℤ) : ∀ v : ℤ, v ∈ l → ∀ a : ℤ, l.foldl min a ≤ v := by
  induction l with
  | nil => intro v hv; cases hv
  | cons b l ih =>
    intro v hv a
    rcases List.mem_cons.mp hv with h | h
    · subst h
      exact le_trans (foldl_min_le_init l (min a v)) (min_le_right a v)
    · exact ih v h (min a b)

lemma foldl_min_eq_init_or_mem (l : List ℤ) :
    ∀ a : ℤ, l.foldl min a = a ∨ l.foldl min a ∈ l := by
  induction l with
  | nil => intro a; exact Or.inl rfl
  | cons b l ih =>
    intro a
    rw [List.foldl_cons]
    rcases ih (min a b) with h | h
    · rw [h]
      rcases min_choice a b with hm | hm
      · exact Or.inl hm
      · exact Or.inr (by rw [hm]; exact List.mem_cons_self b l)
    · exact Or.inr (List.mem_cons_of_mem b h)

lemma le_foldl_max_init (l : List ℤ) : ∀ a : ℤ, a ≤ l.foldl max a := by
  induction l with
  | nil => intro a; exact le_refl a
  | cons b l ih => intro a; exact le_trans (le_max_left a b) (ih (max a b))

lemma le_foldl_max_of_mem (l : List ℤ) : ∀ v : ℤ, v ∈ l → ∀ a : ℤ, v ≤ l.foldl max a := by
  induction l with
  | nil => intro v hv; cases hv
  | cons b l ih =>
    intro v hv a
    rcases List.mem_cons.mp hv with h | h
    · subst h
      exact le_trans (le_max_right a v) (le_foldl_max_init l (max a v))
    · exact ih v h (max a b)

lemma foldl_max_eq_init_or_mem (l : List ℤ) :
    ∀ a : ℤ, l.foldl max a = a ∨ l.foldl max a ∈ l := by
  induction l with
  | nil => intro a; exact Or.inl rfl
  | cons b l ih =>
    intro a
    rw [List.foldl_cons]
    rcases ih (max a b) with h | h
    · rw [h]
      rcases max_choice a b with hm | hm
      · exact Or.inl hm
      · exact Or.inr (by rw [hm]; exact List.mem_cons_self b l)
    · exact Or.inr (List.mem_cons_of_mem b h)

lemma foldl_visitStep_eq (W H : ℤ) (l : List (ℤ × ℤ × ℚ)) :
    ∀ r : DrawResult,
      l.foldl (visitStep W H) r =
        ⟨((l.filter (inBoundsPos W H)).map (fun v => v.1)).foldl min r.x,
         ((l.filter (inBoundsPos W H)).map (fun v => v.2.1)).foldl min r.y,
         ((l.filter (inBoundsPos W H)).map (fun v => v.1)).foldl max r.width,
         ((l.filter (inBoundsPos W H)).map (fun v => v.2.1)).foldl max r.height⟩ := by
  induction l with
  | nil => intro r; rfl
  | cons v l ih =>
    intro r
    rw [List.foldl_cons]
    cases h : inBoundsPos W H v with
    | true =>
      rw [visitStep_of_pos W H r v h, ih]
      simp [List.filter_cons, h, min_comm, max_comm]
    | false =>
      rw [visitStep_of_neg W H r v h, ih]
      simp [List.filter_cons, h]

/-- The result record computed by `calc_text`'s traversal, characterised as running
minima/maxima over the in-bounds positive-coverage samples of `calcVisits`. -/
lemma calc_text_characterization (font : Font) (x y : ℕ) (scale : Scale)
    (text : List Char) (canvas : Canvas) :
    calc_text font x y scale text canvas =
      (let W : ℤ := (canvas.width : ℤ)
       let H : ℤ := (canvas.height : ℤ)
       let xs : List ℤ :=
         ((calcVisits font scale x y text).filter (inBoundsPos W H)).map (fun v => v.1)
       let ys : List ℤ :=
         ((calcVisits font scale x y text).filter (inBoundsPos W H)).map (fun v => v.2.1)
       if 0 < xs.foldl max 0 ∧ 0 < ys.foldl max 0 ∧ xs.foldl min W < W ∧
           ys.foldl min H < H then
         some ⟨xs.foldl min W, ys.foldl min H,
           (xs.foldl max 0 - xs.foldl min W).toNat, (ys.foldl max 0 - ys.foldl min H).toNat⟩
       else none) := by
  simp only [calc_text, calcVisits]
  rw [foldl_calcGlyphStep_eq, foldl_visitStep_eq]
  rfl

lemma inBoundsPos_iff (W H : ℤ) (v : ℤ × ℤ × ℚ) :
    inBoundsPos W H v = true ↔
      0 ≤ v.1 ∧ v.1 < W ∧ 0 ≤ v.2.1 ∧ v.2.1 < H ∧ 0 < v.2.2 := by
  simp only [inBoundsPos, Bool.and_eq_true, decide_eq_true_eq]
  tauto

/-- A one-glyph font whose rasterization is a single full-coverage sample in the top
left corner of its bounding box, anchored at the surface origin. -/
def font1 : Font where
  ascent := fun _ => 0
  glyphId := fun _ => 0
  advance_width := fun _ _ => 1
  pair_kerning := fun _ _ _ => 0
  pixel_bounding_box := fun _ _ _ => some ⟨0, 0, 1, 1⟩
  coverage := fun _ _ _ => [⟨0, 0, 1⟩]

/-- A font whose rasterization has two full-coverage samples, at the corner `(0,0)`
and at `(1,1)` of its bounding box. -/
def font2 : Font where
  ascent := fun _ => 0
  glyphId := fun _ => 0
  advance_width := fun _ _ => 2
  pair_kerning := fun _ _ _ => 0
  pixel_bounding_box := fun _ _ _ => some ⟨0, 0, 2, 2⟩
  coverage := fun _ _ _ => [⟨0, 0, 1⟩, ⟨1, 1, 1⟩]

/-- A font whose only coverage sample has coverage exactly `0.0`. -/
def fontZ : Font where
  ascent := fun _ => 0
  glyphId := fun _ => 0
  advance_width := fun _ _ => 1
  pair_kerning := fun _ _ _ => 0
  pixel_bounding_box := fun _ _ _ => some ⟨0, 0, 1, 1⟩
  coverage := fun _ _ _ => [⟨0, 0, 0⟩]

/-- A 10 by 10 surface whose every pixel is the single-channel value `0`. -/
def canvas10 : Canvas := ⟨10, 10, fun _ _ => [0]⟩

/-- C5: `calc_text` tracks minima initialised to the surface width/height and maxima
initialised to `0` over the in-bounds strictly-positive coverage samples of its
traversal, and returns `Some` rectangle anchored at `(min_x, min_y)` of size
`(max_x - min_x, max_y - min_y)` exactly when `max_x > 0`, `max_y > 0`,
`min_x < width` and `min_y < height`, and `None` otherwise. -/
theorem C5_calc_result (font : Font) (x y : ℕ) (scale : Scale)
    (text : List Char) (canvas : Canvas) :
    calc_text font x y scale text canvas =
      (let W : ℤ := (canvas.width : ℤ)
       let H : ℤ := (canvas.height : ℤ)
       let xs : List ℤ :=
         ((calcVisits font scale x y text).filter (inBoundsPos W H)).map (fun v => v.1)
       let ys : List ℤ :=
         ((calcVisits font scale x y text).filter (inBoundsPos W H)).map (fun v => v.2.1)
       if 0 < xs.foldl max 0 ∧ 0 < ys.foldl max 0 ∧ xs.foldl min W < W ∧
           ys.foldl min H < H then
         some ⟨xs.foldl min W, ys.foldl min H,
           (xs.foldl max 0 - xs.foldl min W).toNat, (ys.foldl max 0 - ys.foldl min H).toNat⟩
       else none) :=
  calc_text_characterization font x y scale text canvas

/-- C6 (counterexample): a single full-coverage sample landing at surface coordinate
`(0, 0)` — strictly inside a 10 by 10 surface — makes `calc_text` return `None`,
because the tracked maxima stay `0`; the claim would require `Some`. -/
theorem C6_counterexample :
    calc_text font1 0 0 scale1 ['a'] canvas10 = none ∧
      ((0, 0, 1) : ℤ × ℤ × ℚ) ∈ calcVisits font1 scale1 0 0 ['a'] ∧
      inBoundsPos (canvas10.width : ℤ) (canvas10.height : ℤ) ((0, 0, 1) : ℤ × ℤ × ℚ) =
        true := by
  refine ⟨by decide, by decide, by decide⟩

/-- C6 (amended): `calc_text` returns `Some` rectangle if and only if at least one
in-bounds coverage sample with value strictly greater than `0.0` has `image_x > 0`
and at least one such sample has `image_y > 0`; samples in surface row `0` or column
`0` alone never produce a rectangle, because the maxima are initialised to `0` and
compared strictly. -/
theorem C6_amended_some_iff (font : Font) (x y : ℕ) (scale : Scale) (text : List Char)
    (canvas : Canvas) :
    (calc_text font x y scale text canvas).isSome = true ↔
      ((∃ v ∈ calcVisits font scale x y text,
          inBoundsPos (canvas.width : ℤ) (canvas.height : ℤ) v = true ∧ 0 < v.1) ∧
       (∃ v ∈ calcVisits font scale x y text,
          inBoundsPos (canvas.width : ℤ) (canvas.height : ℤ) v = true ∧ 0 < v.2.1)) := by
  rw [calc_text_characterization]
  simp only []
  by_cases hc :
      0 < (((calcVisits font scale x y text).filter
            (inBoundsPos (canvas.width : ℤ) (canvas.height : ℤ))).map
          (fun v => v.1)).foldl max 0 ∧
        0 < (((calcVisits font scale x y text).filter
            (inBoundsPos (canvas.width : ℤ) (canvas.height : ℤ))).map
          (fun v => v.2.1)).foldl max 0 ∧
        (((calcVisits font scale x y text).filter
            (inBoundsPos (canvas.width : ℤ) (canvas.height : ℤ))).map
          (fun v => v.1)).foldl min (canvas.width : ℤ) < (canvas.width : ℤ) ∧
        (((calcVisits font scale x y text).filter
            (inBoundsPos (canvas.width : ℤ) (canvas.height : ℤ))).map
          (fun v => v.2.1)).foldl min (canvas.height : ℤ) < (canvas.height : ℤ)
  · rw [if_pos hc]
    simp only [Option.isSome_some, true_iff]
    obtain ⟨hx, hy, -, -⟩ := hc
    constructor
    · rcases foldl_max_eq_init_or_mem _ 0 with h0 | hmem
      · rw [h0] at hx; exact absurd hx (lt_irrefl 0)
      · rcases List.mem_map.mp hmem with ⟨v, hvf, hveq⟩
        rcases List.mem_filter.mp hvf with ⟨hvl, hvb⟩
        exact ⟨v, hvl, hvb, by rw [hveq]; exact hx⟩
    · rcases foldl_max_eq_init_or_mem _ 0 with h0 | hmem
      · rw [h0] at hy; exact absurd hy (lt_irrefl 0)
      · rcases List.mem_map.mp hmem with ⟨v, hvf, hveq⟩
        rcases List.mem_filter.mp hvf with ⟨hvl, hvb⟩
        exact ⟨v, hvl, hvb, by rw [hveq]; exact hy⟩
  · rw [if_neg hc]
    simp only [Option.isSome_none, Bool.false_eq_true, false_iff]
    rintro ⟨⟨v1, hv1, hb1, hp1⟩, ⟨v2, hv2, hb2, hp2⟩⟩
    apply hc
    have hm1 : v1.1 ∈ ((calcVisits font scale x y text).filter
        (inBoundsPos (canvas.width : ℤ) (canvas.height : ℤ))).map (fun v => v.1) :=
      List.mem_map_of_mem _ (List.mem_filter.mpr ⟨hv1, hb1⟩)
    have hm2 : v2.2.1 ∈ ((calcVisits font scale x y text).filter
        (inBoundsPos (canvas.width : ℤ) (canvas.height : ℤ))).map (fun v => v.2.1) :=
      List.mem_map_of_mem _ (List.mem_filter.mpr ⟨hv2, hb2⟩)
    have hw1 := (inBoundsPos_iff _ _ v1).mp hb1
    have hw2 := (inBoundsPos_iff _ _ v2).mp hb2
    refine ⟨lt_of_lt_of_le hp1 (le_foldl_max_of_mem _ _ hm1 0),
      lt_of_lt_of_le hp2 (le_foldl_max_of_mem _ _ hm2 0),
      lt_of_le_of_lt (foldl_min_le_of_mem _ _ hm1 _) hw1.2.1,
      lt_of_le_of_lt (foldl_min_le_of_mem _ _ hm2 _) hw2.2.2.2.1⟩

/-- C2 (counterexample): a single full-coverage sample at surface coordinate `(0,0)`
makes the compositor perform exactly one pixel write (its access trace is `[(0,0)]`),
yet `calc_text` returns `None`, so no rectangle containing the written pixel is
produced. -/
theorem C2_counterexample :
    (drawTextMutTraced 0 1 font1 [1] 0 0 scale1 ['a'] canvas10).accesses = [(0, 0)] ∧
      calc_text font1 0 0 scale1 ['a'] canvas10 = none := by
  refine ⟨by decide, by decide⟩

/-- C2 (amended): whenever `calc_text` does return a rectangle, that rectangle
contains every in-bounds strictly-positive coverage sample of `calc_text`'s own
traversal (which uses the unrounded rusttype layout, not the compositor's rounded
one), and each of the four rectangle sides is attained by at least one such sample;
the corners themselves need not coincide with any sample, and samples with zero
coverage or positive samples in row/column `0` are not guaranteed to be covered. -/
theorem C2_amended_bounds (font : Font) (x y : ℕ) (scale : Scale) (text : List Char)
    (canvas : Canvas) (r : Rect)
    (h : calc_text font x y scale text canvas = some r) :
    (∀ v ∈ calcVisits font scale x y text,
        inBoundsPos (canvas.width : ℤ) (canvas.height : ℤ) v = true →
          r.x ≤ v.1 ∧ v.1 ≤ r.x + (r.width : ℤ) ∧
            r.y ≤ v.2.1 ∧ v.2.1 ≤ r.y + (r.height : ℤ)) ∧
      (∃ v ∈ calcVisits font scale x y text,
        inBoundsPos (canvas.width : ℤ) (canvas.height : ℤ) v = true ∧ v.1 = r.x) ∧
      (∃ v ∈ calcVisits font scale x y text,
        inBoundsPos (canvas.width : ℤ) (canvas.height : ℤ) v = true ∧
          v.1 = r.x + (r.width : ℤ)) ∧
      (∃ v ∈ calcVisits font scale x y text,
        inBoundsPos (canvas.width : ℤ) (canvas.height : ℤ) v = true ∧ v.2.1 = r.y) ∧
      (∃ v ∈ calcVisits font scale x y text,
        inBoundsPos (canvas.width : ℤ) (canvas.height : ℤ) v = true ∧
          v.2.1 = r.y + (r.height : ℤ)) := by
  rw [calc_text_characterization] at h
  simp only [] at h
  split at h
  case isFalse => exact Option.noConfusion h
  case isTrue hc =>
    rw [Option.some.injEq] at h
    obtain ⟨hmx, hmy, hnx, hny⟩ := hc
    have hmaxX_mem : (((calcVisits font scale x y text).filter
        (inBoundsPos (canvas.width : ℤ) (canvas.height : ℤ))).map
          (fun v => v.1)).foldl max 0 ∈
        ((calcVisits font scale x y text).filter
          (inBoundsPos (canvas.width : ℤ) (canvas.height : ℤ))).map (fun v => v.1) := by
      rcases foldl_max_eq_init_or_mem (((calcVisits font scale x y text).filter
          (inBoundsPos (canvas.width : ℤ) (canvas.height : ℤ))).map (fun v => v.1)) 0 with
        h0 | hm
      · rw [h0] at hmx; exact absurd hmx (lt_irrefl 0)
      · exact hm
    have hmaxY_mem : (((calcVisits font scale x y text).filter
        (inBoundsPos (canvas.width : ℤ) (canvas.height : ℤ))).map
          (fun v => v.2.1)).foldl max 0 ∈
        ((calcVisits font scale x y text).filter
          (inBoundsPos (canvas.width : ℤ) (canvas.height : ℤ))).map (fun v => v.2.1) := by
      rcases foldl_max_eq_init_or_mem (((calcVisits font scale x y text).filter
          (inBoundsPos (canvas.width : ℤ) (canvas.height : ℤ))).map (fun v => v.2.1)) 0 with
        h0 | hm
      · rw [h0] at hmy; exact absurd hmy (lt_irrefl 0)
      · exact hm
    have hminX_mem : (((calcVisits font scale x y text).filter
        (inBoundsPos (canvas.width : ℤ) (canvas.height : ℤ))).map
          (fun v => v.1)).foldl min (canvas.width : ℤ) ∈
        ((calcVisits font scale x y text).filter
          (inBoundsPos (canvas.width : ℤ) (canvas.height : ℤ))).map (fun v => v.1) := by
      rcases foldl_min_eq_init_or_mem (((calcVisits font scale x y text).filter
          (inBoundsPos (canvas.width : ℤ) (canvas.height : ℤ))).map (fun v => v.1))
          (canvas.width : ℤ) with h0 | hm
      · rw [h0] at hnx; exact absurd hnx (lt_irrefl _)
      · exact hm
    have hminY_mem : (((calcVisits font scale x y text).filter
        (inBoundsPos (canvas.width : ℤ) (canvas.height : ℤ))).map
          (fun v => v.2.1)).foldl min (canvas.height : ℤ) ∈
        ((calcVisits font scale x y text).filter
          (inBoundsPos (canvas.width : ℤ) (canvas.height : ℤ))).map (fun v => v.2.1) := by
      rcases foldl_min_eq_init_or_mem (((calcVisits font scale x y text).filter
          (inBoundsPos (canvas.width : ℤ) (canvas.height : ℤ))).map (fun v => v.2.1))
          (canvas.height : ℤ) with h0 | hm
      · rw [h0] at hny; exact absurd hny (lt_irrefl _)
      · exact hm
    have hle : (((calcVisits font scale x y text).filter
        (inBoundsPos (canvas.width : ℤ) (canvas.height : ℤ))).map
          (fun v => v.1)).foldl min (canvas.width : ℤ) ≤
        (((calcVisits font scale x y text).filter
          (inBoundsPos (canvas.width : ℤ) (canvas.height : ℤ))).map
            (fun v => v.1)).foldl max 0 :=
      foldl_min_le_of_mem _ _ hmaxX_mem _
    have hleY : (((calcVisits font scale x y text).filter
        (inBoundsPos (canvas.width : ℤ) (canvas.height : ℤ))).map
          (fun v => v.2.1)).foldl min (canvas.height : ℤ) ≤
        (((calcVisits font scale x y text).filter
          (inBoundsPos (canvas.width : ℤ) (canvas.height : ℤ))).map
            (fun v => v.2.1)).foldl max 0 :=
      foldl_min_le_of_mem _ _ hmaxY_mem _
    have hrx : r.x = (((calcVisits font scale x y text).filter
        (inBoundsPos (canvas.width : ℤ) (canvas.height : ℤ))).map
          (fun v => v.1)).foldl min (canvas.width : ℤ) := by rw [← h]
    have hry : r.y = (((calcVisits font scale x y text).filter
        (inBoundsPos (canvas.width : ℤ) (canvas.height : ℤ))).map
          (fun v => v.2.1)).foldl min (canvas.height : ℤ) := by rw [← h]
    have hrw : r.x + (r.width : ℤ) = (((calcVisits font scale x y text).filter
        (inBoundsPos (canvas.width : ℤ) (canvas.height : ℤ))).map
          (fun v => v.1)).foldl max 0 := by
      rw [← h]
      show _ + ((Int.toNat _ : ℕ) : ℤ) = _
      rw [Int.toNat_of_nonneg (sub_nonneg.mpr hle)]
      ring
    have hrh : r.y + (r.height : ℤ) = (((calcVisits font scale x y text).filter
        (inBoundsPos (canvas.width : ℤ) (canvas.height : ℤ))).map
          (fun v => v.2.1)).foldl max 0 := by
      rw [← h]
      show _ + ((Int.toNat _ : ℕ) : ℤ) = _
      rw [Int.toNat_of_nonneg (sub_nonneg.mpr hleY)]
      ring
    refine ⟨?_, ?_, ?_, ?_, ?_⟩
    · intro v hv hb
      have hx : v.1 ∈ ((calcVisits font scale x y text).filter
          (inBoundsPos (canvas.width : ℤ) (canvas.height : ℤ))).map (fun v => v.1) :=
        List.mem_map_of_mem _ (List.mem_filter.mpr ⟨hv, hb⟩)
      have hyy : v.2.1 ∈ ((calcVisits font scale x y text).filter
          (inBoundsPos (canvas.width : ℤ) (canvas.height : ℤ))).map (fun v => v.2.1) :=
        List.mem_map_of_mem _ (List.mem_filter.mpr ⟨hv, hb⟩)
      refine ⟨?_, ?_, ?_, ?_⟩
      · rw [hrx]; exact foldl_min_le_of_mem _ _ hx _
      · rw [hrw]; exact le_foldl_max_of_mem _ _ hx _
      · rw [hry]; exact foldl_min_le_of_mem _ _ hyy _
      · rw [hrh]; exact le_foldl_max_of_mem _ _ hyy _
    · rcases List.mem_map.mp hminX_mem with ⟨u, hu, hueq⟩
      rcases List.mem_filter.mp hu with ⟨hul, hub⟩
      exact ⟨u, hul, hub, by rw [hueq, ← hrx]⟩
    · rcases List.mem_map.mp hmaxX_mem with ⟨u, hu, hueq⟩
      rcases List.mem_filter.mp hu with ⟨hul, hub⟩
      exact ⟨u, hul, hub, by rw [hueq, ← hrw]⟩
    · rcases List.mem_map.mp hminY_mem with ⟨u, hu, hueq⟩
      rcases List.mem_filter.mp hu with ⟨hul, hub⟩
      exact ⟨u, hul, hub, by rw [hueq, ← hry]⟩
    · rcases List.mem_map.mp hmaxY_mem with ⟨u, hu, hueq⟩
      rcases List.mem_filter.mp hu with ⟨hul, hub⟩
      exact ⟨u, hul, hub, by rw [hueq, ← hrh]⟩

/-- Witness for C2 (amended) at a concrete input: a glyph with samples at `(0,0)` and
`(1,1)` on a 10 by 10 surface yields the rectangle at `(0,0)` of size `1` by `1`, and
the amended bounds/attainment statement holds there. -/
theorem C2_amended_bounds_witness :
    calc_text font2 0 0 scale1 ['a'] canvas10 = some ⟨0, 0, 1, 1⟩ ∧
      ((∀ v ∈ calcVisits font2 scale1 0 0 ['a'],
          inBoundsPos (canvas10.width : ℤ) (canvas10.height : ℤ) v = true →
            (0 : ℤ) ≤ v.1 ∧ v.1 ≤ (0 : ℤ) + ((1 : ℕ) : ℤ) ∧
              (0 : ℤ) ≤ v.2.1 ∧ v.2.1 ≤ (0 : ℤ) + ((1 : ℕ) : ℤ)) ∧
        (∃ v ∈ calcVisits font2 scale1 0 0 ['a'],
          inBoundsPos (canvas10.width : ℤ) (canvas10.height : ℤ) v = true ∧
            v.1 = (0 : ℤ)) ∧
        (∃ v ∈ calcVisits font2 scale1 0 0 ['a'],
          inBoundsPos (canvas10.width : ℤ) (canvas10.height : ℤ) v = true ∧
            v.1 = (0 : ℤ) + ((1 : ℕ) : ℤ)) ∧
        (∃ v ∈ calcVisits font2 scale1 0 0 ['a'],
          inBoundsPos (canvas10.width : ℤ) (canvas10.height : ℤ) v = true ∧
            v.2.1 = (0 : ℤ)) ∧
        (∃ v ∈ calcVisits font2 scale1 0 0 ['a'],
          inBoundsPos (canvas10.width : ℤ) (canvas10.height : ℤ) v = true ∧
            v.2.1 = (0 : ℤ) + ((1 : ℕ) : ℤ))) :=
  ⟨by decide, C2_amended_bounds font2 0 0 scale1 ['a'] canvas10 ⟨0, 0, 1, 1⟩ (by decide)⟩

/-- Invariant carried along the compositor's traversal: the canvas dimensions are
unchanged and every recorded access so far is strictly inside them. -/
def AccInv (W H : ℕ) (st : DrawState) : Prop :=
  st.canvas.width = W ∧ st.canvas.height = H ∧
    ∀ p ∈ st.accesses, p.1 < W ∧ p.2 < H

lemma drawSampleStep_accInv (lo hi : ℚ) (color : Px) (x y : ℕ) (bb : GlyphBBox)
    (W H : ℕ) (st : DrawState) (s : Sample) (h : AccInv W H st) :
    AccInv W H (drawSampleStep lo hi color x y bb st s) := by
  obtain ⟨hW, hH, hacc⟩ := h
  simp only [drawSampleStep]
  split
  · rename_i hg
    rw [hW, hH] at hg
    refine ⟨hW, hH, ?_⟩
    intro p hp
    rcases List.mem_append.mp hp with hp | hp
    · exact hacc p hp
    · rw [List.mem_singleton.mp hp]
      constructor <;> [skip; skip] <;> simp only [] <;> omega
  · exact ⟨hW, hH, hacc⟩

lemma foldl_drawSampleStep_accInv (lo hi : ℚ) (color : Px) (x y : ℕ) (bb : GlyphBBox)
    (W H : ℕ) (samples : List Sample) :
    ∀ st : DrawState, AccInv W H st →
      AccInv W H (samples.foldl (drawSampleStep lo hi color x y bb) st) := by
  induction samples with
  | nil => intro st h; exact h
  | cons s samples ih =>
    intro st h
    exact ih _ (drawSampleStep_accInv lo hi color x y bb W H st s h)

lemma drawGlyphStep_accInv (lo hi : ℚ) (font : Font) (scale : Scale) (color : Px)
    (x y : ℕ) (W H : ℕ) (st : DrawState) (g : PositionedGlyph) (h : AccInv W H st) :
    AccInv W H (drawGlyphStep lo hi font scale color x y st g) := by
  unfold drawGlyphStep
  cases font.pixel_bounding_box scale g.ch g.pos with
  | none => exact h
  | some bb => exact foldl_drawSampleStep_accInv lo hi color x y bb W H _ st h

lemma foldl_drawGlyphStep_accInv (lo hi : ℚ) (font : Font) (scale : Scale) (color : Px)
    (x y : ℕ) (W H : ℕ) (gs : List PositionedGlyph) :
    ∀ st : DrawState, AccInv W H st →
      AccInv W H (gs.foldl (drawGlyphStep lo hi font scale color x y) st) := by
  induction gs with
  | nil => intro st h; exact h
  | cons g gs ih =>
    intro st h
    exact ih _ (drawGlyphStep_accInv lo hi font scale color x y W H st g h)

/-- C3: every `get_pixel`/`draw_pixel` access the compositor performs — the entries of
its access trace, each recorded exactly when the guarded read-blend-write fires — lies
strictly inside `[0, width) × [0, height)`; the bounds check precedes every access, so
no out-of-range surface access is reachable. -/
theorem C3_clip_safe (lo hi : ℚ) (font : Font) (color : Px) (x y : ℕ) (scale : Scale)
    (text : List Char) (canvas : Canvas) :
    ∀ p ∈ (drawTextMutTraced lo hi font color x y scale text canvas).accesses,
      p.1 < canvas.width ∧ p.2 < canvas.height := by
  have h := foldl_drawGlyphStep_accInv lo hi font scale color x y canvas.width
    canvas.height (drawLayout font scale text) ⟨canvas, []⟩
    ⟨rfl, rfl, by intro p hp; cases hp⟩
  exact h.2.2

/-- Witness for C3 at a concrete input: the compositor on a 10 by 10 surface records
the access `(0, 0)`, which is inside the surface. -/
theorem C3_clip_safe_witness :
    (0, 0) ∈ (drawTextMutTraced 0 1 font2 [1] 0 0 scale1 ['a'] canvas10).accesses ∧
      ((0, 0) : ℕ × ℕ).1 < canvas10.width ∧ ((0, 0) : ℕ × ℕ).2 < canvas10.height :=
  ⟨by decide, C3_clip_safe 0 1 font2 [1] 0 0 scale1 ['a'] canvas10 (0, 0) (by decide)⟩

/-- Whether a translated sample passes the compositor's bounds check (coverage plays
no role there: the compositor reads and writes even at zero coverage). -/
def inBoundsB (W H : ℤ) (v : ℤ × ℤ × ℚ) : Bool :=
  decide (0 ≤ v.1) && decide (v.1 < W) && decide (0 ≤ v.2.1) && decide (v.2.1 < H)

/-- Surface pixel coordinates of a translated sample, after the `as u32` casts. -/
def toPix (v : ℤ × ℤ × ℚ) : ℕ × ℕ := (v.1.toNat, v.2.1.toNat)

lemma inBoundsB_iff (W H : ℤ) (v : ℤ × ℤ × ℚ) :
    inBoundsB W H v = true ↔ 0 ≤ v.1 ∧ v.1 < W ∧ 0 ≤ v.2.1 ∧ v.2.1 < H := by
  simp only [inBoundsB, Bool.and_eq_true, decide_eq_true_eq]
  tauto

lemma foldl_drawSampleStep_accesses (lo hi : ℚ) (color : Px) (x y : ℕ) (bb : GlyphBBox)
    (W H : ℕ) (samples : List Sample) :
    ∀ st : DrawState, st.canvas.width = W → st.canvas.height = H →
      (samples.foldl (drawSampleStep lo hi color x y bb) st).canvas.width = W ∧
      (samples.foldl (drawSampleStep lo hi color x y bb) st).canvas.height = H ∧
      (samples.foldl (drawSampleStep lo hi color x y bb) st).accesses =
        st.accesses ++
          (((samples.map (fun s => ((s.gx : ℤ) + bb.minX + (x : ℤ),
              ((s.gy : ℤ) + bb.minY + (y : ℤ), s.gv)))).filter
            (inBoundsB (W : ℤ) (H : ℤ))).map toPix) := by
  induction samples with
  | nil => intro st hW hH; exact ⟨hW, hH, by simp⟩
  | cons s samples ih =>
    intro st hW hH
    simp only [List.foldl_cons, List.map_cons, List.filter_cons]
    by_cases hg : 0 ≤ (s.gx : ℤ) + bb.minX + (x : ℤ) ∧
        (s.gx : ℤ) + bb.minX + (x : ℤ) < (W : ℤ) ∧
        0 ≤ (s.gy : ℤ) + bb.minY + (y : ℤ) ∧
        (s.gy : ℤ) + bb.minY + (y : ℤ) < (H : ℤ)
    · have hstep : drawSampleStep lo hi color x y bb st s =
          ⟨st.canvas.draw_pixel ((s.gx : ℤ) + bb.minX + (x : ℤ)).toNat
              ((s.gy : ℤ) + bb.minY + (y : ℤ)).toNat
              (weighted_sum lo hi
                (st.canvas.pixel ((s.gx : ℤ) + bb.minX + (x : ℤ)).toNat
                  ((s.gy : ℤ) + bb.minY + (y : ℤ)).toNat) color (1 - s.gv) s.gv),
            st.accesses ++ [(((s.gx : ℤ) + bb.minX + (x : ℤ)).toNat,
              ((s.gy : ℤ) + bb.minY + (y : ℤ)).toNat)]⟩ := by
        simp only [drawSampleStep, hW, hH]
        rw [if_pos hg]
      obtain ⟨h1, h2, h3⟩ := ih (drawSampleStep lo hi color x y bb st s)
        (by rw [hstep]; exact hW) (by rw [hstep]; exact hH)
      rw [if_pos ((inBoundsB_iff _ _ _).mpr hg)]
      refine ⟨h1, h2, ?_⟩
      rw [h3, hstep]
      simp [toPix]
    · have hstep : drawSampleStep lo hi color x y bb st s = st := by
        simp only [drawSampleStep, hW, hH]
        rw [if_neg hg]
      rw [hstep]
      have hb : inBoundsB (W : ℤ) (H : ℤ) ((s.gx : ℤ) + bb.minX + (x : ℤ),
          ((s.gy : ℤ) + bb.minY + (y : ℤ), s.gv)) = false := by
        rw [← Bool.not_eq_true, inBoundsB_iff]
        exact hg
      rw [if_neg (by rw [hb]; exact Bool.false_ne_true)]
      exact ih st hW hH

lemma drawGlyphStep_accesses (lo hi : ℚ) (font : Font) (scale : Scale) (color : Px)
    (x y : ℕ) (W H : ℕ) (st : DrawState) (g : PositionedGlyph)
    (hW : st.canvas.width = W) (hH : st.canvas.height = H) :
    (drawGlyphStep lo hi font scale color x y st g).canvas.width = W ∧
    (drawGlyphStep lo hi font scale color x y st g).canvas.height = H ∧
    (drawGlyphStep lo hi font scale color x y st g).accesses =
      st.accesses ++
        (((glyphVisits font scale x y g).filter (inBoundsB (W : ℤ) (H : ℤ))).map toPix) := by
  unfold drawGlyphStep glyphVisits
  cases font.pixel_bounding_box scale g.ch g.pos with
  | none => exact ⟨hW, hH, by simp⟩
  | some bb => exact foldl_drawSampleStep_accesses lo hi color x y bb W H _ st hW hH

lemma foldl_drawGlyphStep_accesses (lo hi : ℚ) (font : Font) (scale : Scale)
    (color : Px) (x y : ℕ) (W H : ℕ) (gs : List PositionedGlyph) :
    ∀ st : DrawState, st.canvas.width = W → st.canvas.height = H →
      (gs.foldl (drawGlyphStep lo hi font scale color x y) st).canvas.width = W ∧
      (gs.foldl (drawGlyphStep lo hi font scale color x y) st).canvas.height = H ∧
      (gs.foldl (drawGlyphStep lo hi font scale color x y) st).accesses =
        st.accesses ++
          (((gs.flatMap (glyphVisits font scale x y)).filter
            (inBoundsB (W : ℤ) (H : ℤ))).map toPix) := by
  induction gs with
  | nil => intro st hW hH; exact ⟨hW, hH, by simp⟩
  | cons g gs ih =>
    intro st hW hH
    simp only [List.foldl_cons, List.flatMap_cons, List.filter_append, List.map_append]
    obtain ⟨h1, h2, h3⟩ := drawGlyphStep_accesses lo hi font scale color x y W H st g hW hH
    obtain ⟨h4, h5, h6⟩ := ih _ h1 h2
    refine ⟨h4, h5, ?_⟩
    rw [h6, h3, List.append_assoc]

/-- The compositor's access trace is exactly the in-bounds part of its sample
enumeration `drawVisits`, translated to surface pixel coordinates: `drawVisits` is
faithfully the sequence of samples `draw_text_mut` traverses. -/
lemma drawTextMutTraced_accesses (lo hi : ℚ) (font : Font) (color : Px) (x y : ℕ)
    (scale : Scale) (text : List Char) (canvas : Canvas) :
    (drawTextMutTraced lo hi font color x y scale text canvas).accesses =
      ((drawVisits font scale x y text).filter
        (inBoundsB (canvas.width : ℤ) (canvas.height : ℤ))).map toPix := by
  have h := foldl_drawGlyphStep_accesses lo hi font scale color x y canvas.width
    canvas.height (drawLayout font scale text) ⟨canvas, []⟩ rfl rfl
  rw [drawTextMutTraced, h.2.2]
  rfl

/-- A font whose pixel bounding box genuinely depends on the glyph's position (as real
rasterized glyphs do): the box is anchored at the floor of the glyph's x position, the
advance width is the non-integral `21/2`, and each glyph rasterizes to one
full-coverage sample. -/
def fontR : Font where
  ascent := fun _ => 0
  glyphId := fun _ => 0
  advance_width := fun _ _ => 21/2
  pair_kerning := fun _ _ _ => 0
  pixel_bounding_box := fun _ _ pos => some ⟨⌊pos.1⌋, 0, ⌊pos.1⌋ + 1, 1⟩
  coverage := fun _ _ _ => [⟨0, 0, 1⟩]

/-- C1: at a font with advance width `21/2`, the compositor's traversal (rounded
layout: glyph 1 at `x = 11`) and the bounds calculator's traversal (rusttype layout:
glyph 1 at `x = 21/2`, box anchored at `10`) enumerate different pixel samples — the
two traversals disagree, refuting the claimed identical-enumeration property. -/
theorem C1_layout_divergence :
    drawVisits fontR scale1 0 0 ['a', 'b'] = [(0, 0, 1), (11, 0, 1)] ∧
      calcVisits fontR scale1 0 0 ['a', 'b'] = [(0, 0, 1), (10, 0, 1)] ∧
      drawVisits fontR scale1 0 0 ['a', 'b'] ≠ calcVisits fontR scale1 0 0 ['a', 'b'] := by
  have h1 : drawVisits fontR scale1 0 0 ['a', 'b'] = [(0, 0, 1), (11, 0, 1)] := by
    simp [drawVisits, drawLayout, drawLayoutAux, glyphVisits, fontR, scale1]
    norm_num [rustRound]
  have h2 : calcVisits fontR scale1 0 0 ['a', 'b'] = [(0, 0, 1), (10, 0, 1)] := by
    simp [calcVisits, calcLayout, calcLayoutAux, glyphVisits, fontR, scale1]
    norm_num
  refine ⟨h1, h2, ?_⟩
  rw [h1, h2]
  decide

lemma clampCh_eq_self (lo hi v : ℚ) (h1 : lo ≤ v) (h2 : v ≤ hi) : clampCh lo hi v = v := by
  unfold clampCh
  rw [max_eq_right h1, min_eq_right h2]

lemma zipWith_clamp_right (lo hi : ℚ) (p q : Px) (hlen : q.length = p.length)
    (hq : ∀ ch ∈ q, lo ≤ ch ∧ ch ≤ hi) :
    List.zipWith (fun a b => clampCh lo hi b) p q = q := by
  induction p generalizing q with
  | nil =>
    cases q with
    | nil => rfl
    | cons b q => exact absurd hlen (by simp)
  | cons a p ih =>
    cases q with
    | nil => rfl
    | cons b q =>
      simp only [List.zipWith_cons_cons]
      have hb := hq b (List.mem_cons_self b q)
      rw [clampCh_eq_self lo hi b hb.1 hb.2,
        ih q (by simpa using hlen) (fun ch hch => hq ch (List.mem_cons_of_mem b hch))]

lemma weighted_sum_left_self (lo hi : ℚ) (p q : Px) (hlen : p.length = q.length)
    (hp : ∀ ch ∈ p, lo ≤ ch ∧ ch ≤ hi) :
    weighted_sum lo hi p q 1 0 = p := by
  unfold weighted_sum
  induction p generalizing q with
  | nil => rfl
  | cons a p ih =>
    cases q with
    | nil => exact absurd hlen (by simp)
    | cons b q =>
      simp only [List.zipWith_cons_cons]
      have ha := hp a (List.mem_cons_self a p)
      rw [mul_one, mul_zero, add_zero, clampCh_eq_self lo hi a ha.1 ha.2,
        ih q (by simpa using hlen) (fun ch hch => hp ch (List.mem_cons_of_mem a hch))]

lemma draw_pixel_self (c : Canvas) (px py : ℕ) :
    c.draw_pixel px py (c.pixel px py) = c := by
  cases c with
  | mk w h p =>
    unfold Canvas.draw_pixel
    simp only [Canvas.mk.injEq, true_and]
    funext a b
    split
    · rename_i hab; rw [hab.1, hab.2]
    · rfl

/-- C7: for an in-bounds visited sample with coverage `gv`, the compositor replaces the
pixel by the component-wise linear interpolation `current * (1 - gv) + color * gv`
with every resulting channel clamped into the subpixel range `[lo, hi]`; when the
coverage is exactly `1.0` (and the requested color is a well-formed pixel: channels in
range, channel count matching the surface pixel), the result is exactly the requested
color. -/
theorem C7_blend (lo hi : ℚ) (color : Px) (x y : ℕ) (bb : GlyphBBox) (st : DrawState)
    (s : Sample)
    (hin : 0 ≤ (s.gx : ℤ) + bb.minX + (x : ℤ) ∧
      (s.gx : ℤ) + bb.minX + (x : ℤ) < (st.canvas.width : ℤ) ∧
      0 ≤ (s.gy : ℤ) + bb.minY + (y : ℤ) ∧
      (s.gy : ℤ) + bb.minY + (y : ℤ) < (st.canvas.height : ℤ))
    (hlen : color.length = (st.canvas.pixel ((s.gx : ℤ) + bb.minX + (x : ℤ)).toNat
      ((s.gy : ℤ) + bb.minY + (y : ℤ)).toNat).length)
    (hrange : ∀ ch ∈ color, lo ≤ ch ∧ ch ≤ hi) :
    (drawSampleStep lo hi color x y bb st s).canvas.pixel
        ((s.gx : ℤ) + bb.minX + (x : ℤ)).toNat ((s.gy : ℤ) + bb.minY + (y : ℤ)).toNat =
      List.zipWith (fun a b => clampCh lo hi (a * (1 - s.gv) + b * s.gv))
        (st.canvas.pixel ((s.gx : ℤ) + bb.minX + (x : ℤ)).toNat
          ((s.gy : ℤ) + bb.minY + (y : ℤ)).toNat) color ∧
      (s.gv = 1 →
        (drawSampleStep lo hi color x y bb st s).canvas.pixel
            ((s.gx : ℤ) + bb.minX + (x : ℤ)).toNat
            ((s.gy : ℤ) + bb.minY + (y : ℤ)).toNat = color) := by
  have hstep : drawSampleStep lo hi color x y bb st s =
      ⟨st.canvas.draw_pixel ((s.gx : ℤ) + bb.minX + (x : ℤ)).toNat
          ((s.gy : ℤ) + bb.minY + (y : ℤ)).toNat
          (weighted_sum lo hi
            (st.canvas.pixel ((s.gx : ℤ) + bb.minX + (x : ℤ)).toNat
              ((s.gy : ℤ) + bb.minY + (y : ℤ)).toNat) color (1 - s.gv) s.gv),
        st.accesses ++ [(((s.gx : ℤ) + bb.minX + (x : ℤ)).toNat,
          ((s.gy : ℤ) + bb.minY + (y : ℤ)).toNat)]⟩ := by
    simp only [drawSampleStep]
    rw [if_pos hin]
  have hpix : (drawSampleStep lo hi color x y bb st s).canvas.pixel
      ((s.gx : ℤ) + bb.minX + (x : ℤ)).toNat ((s.gy : ℤ) + bb.minY + (y : ℤ)).toNat =
      weighted_sum lo hi
        (st.canvas.pixel ((s.gx : ℤ) + bb.minX + (x : ℤ)).toNat
          ((s.gy : ℤ) + bb.minY + (y : ℤ)).toNat) color (1 - s.gv) s.gv := by
    rw [hstep]
    simp [Canvas.draw_pixel]
  constructor
  · rw [hpix]; rfl
  · intro hgv
    rw [hpix, hgv]
    have : weighted_sum lo hi
        (st.canvas.pixel ((s.gx : ℤ) + bb.minX + (x : ℤ)).toNat
          ((s.gy : ℤ) + bb.minY + (y : ℤ)).toNat) color (1 - 1) 1 =
        List.zipWith (fun a b => clampCh lo hi b)
          (st.canvas.pixel ((s.gx : ℤ) + bb.minX + (x : ℤ)).toNat
            ((s.gy : ℤ) + bb.minY + (y : ℤ)).toNat) color := by
      unfold weighted_sum
      congr 1
      funext a b
      rw [sub_self, mul_zero, mul_one, zero_add]
    rw [this]
    exact zipWith_clamp_right lo hi _ color hlen hrange

/-- Witness for C7 at a concrete input: coverage `1.0` over background pixel `[0]`
with draw color `[1]` in range `[0, 1]` produces exactly `[1]`. -/
theorem C7_blend_witness :
    (drawSampleStep 0 1 [1] 0 0 ⟨0, 0, 1, 1⟩ ⟨canvas10, []⟩ ⟨0, 0, 1⟩).canvas.pixel 0 0 =
        List.zipWith (fun a b => clampCh 0 1 (a * (1 - 1) + b * 1))
          (canvas10.pixel 0 0) [1] ∧
      ((1 : ℚ) = 1 →
        (drawSampleStep 0 1 [1] 0 0 ⟨0, 0, 1, 1⟩ ⟨canvas10, []⟩ ⟨0, 0, 1⟩).canvas.pixel
          0 0 = [1]) :=
  C7_blend 0 1 [1] 0 0 ⟨0, 0, 1, 1⟩ ⟨canvas10, []⟩ ⟨0, 0, 1⟩ (by decide) rfl (by decide)

lemma drawSampleStep_canvas_zero (lo hi : ℚ) (color : Px) (x y : ℕ) (bb : GlyphBBox)
    (canvas : Canvas) (st : DrawState) (s : Sample) (hgv : s.gv = 0)
    (hst : st.canvas = canvas)
    (hpx : ∀ a b : ℕ, (canvas.pixel a b).length = color.length ∧
      ∀ ch ∈ canvas.pixel a b, lo ≤ ch ∧ ch ≤ hi) :
    (drawSampleStep lo hi color x y bb st s).canvas = canvas := by
  simp only [drawSampleStep]
  split
  · simp only []
    rw [hst, hgv, sub_zero]
    rw [weighted_sum_left_self lo hi _ color (hpx _ _).1 (hpx _ _).2]
    exact draw_pixel_self canvas _ _
  · exact hst

lemma foldl_drawSampleStep_canvas_zero (lo hi : ℚ) (color : Px) (x y : ℕ)
    (bb : GlyphBBox) (canvas : Canvas)
    (hpx : ∀ a b : ℕ, (canvas.pixel a b).length = color.length ∧
      ∀ ch ∈ canvas.pixel a b, lo ≤ ch ∧ ch ≤ hi)
    (samples : List Sample) (hz : ∀ s ∈ samples, s.gv = 0) :
    ∀ st : DrawState, st.canvas = canvas →
      ((samples.foldl (drawSampleStep lo hi color x y bb) st)).canvas = canvas := by
  induction samples with
  | nil => intro st hst; exact hst
  | cons s samples ih =>
    intro st hst
    exact ih (fun u hu => hz u (List.mem_cons_of_mem s hu)) _
      (drawSampleStep_canvas_zero lo hi color x y bb canvas st s
        (hz s (List.mem_cons_self s samples)) hst hpx)

lemma foldl_drawGlyphStep_canvas_zero (lo hi : ℚ) (font : Font) (scale : Scale)
    (color : Px) (x y : ℕ) (canvas : Canvas)
    (hpx : ∀ a b : ℕ, (canvas.pixel a b).length = color.length ∧
      ∀ ch ∈ canvas.pixel a b, lo ≤ ch ∧ ch ≤ hi)
    (gs : List PositionedGlyph)
    (hcov : ∀ g ∈ gs, ∀ s ∈ font.coverage scale g.ch g.pos, s.gv = 0) :
    ∀ st : DrawState, st.canvas = canvas →
      ((gs.foldl (drawGlyphStep lo hi font scale color x y) st)).canvas = canvas := by
  induction gs with
  | nil => intro st hst; exact hst
  | cons g gs ih =>
    intro st hst
    refine ih (fun u hu => hcov u (List.mem_cons_of_mem g hu)) _ ?_
    unfold drawGlyphStep
    cases hbb : font.pixel_bounding_box scale g.ch g.pos with
    | none => exact hst
    | some bb =>
      exact foldl_drawSampleStep_canvas_zero lo hi color x y bb canvas hpx _
        (hcov g (List.mem_cons_self g gs)) st hst

/-- C8: compositing a glyph run in which every coverage sample is `0.0` (over a
surface whose pixels are well-formed: channel count matching the draw color, channels
within the subpixel range) leaves every pixel of the surface identical to its value
before the call. -/
theorem C8_zero_coverage (lo hi : ℚ) (font : Font) (color : Px) (x y : ℕ)
    (scale : Scale) (text : List Char) (canvas : Canvas)
    (hcov : ∀ g ∈ drawLayout font scale text,
      ∀ s ∈ font.coverage scale g.ch g.pos, s.gv = 0)
    (hpx : ∀ a b : ℕ, (canvas.pixel a b).length = color.length ∧
      ∀ ch ∈ canvas.pixel a b, lo ≤ ch ∧ ch ≤ hi) :
    draw_text_mut lo hi font color x y scale text canvas = canvas :=
  foldl_drawGlyphStep_canvas_zero lo hi font scale color x y canvas hpx
    (drawLayout font scale text) hcov ⟨canvas, []⟩ rfl

/-- Witness for C8 at a concrete input: a glyph whose only sample has coverage `0.0`
leaves the 10 by 10 surface unchanged. -/
theorem C8_zero_coverage_witness :
    draw_text_mut 0 1 fontZ [1] 0 0 scale1 ['a'] canvas10 = canvas10 :=
  C8_zero_coverage 0 1 fontZ [1] 0 0 scale1 ['a'] canvas10 (by decide)
    (fun a b => ⟨rfl, by
      show ∀ ch ∈ ([0] : Px), (0 : ℚ) ≤ ch ∧ ch ≤ 1
      decide⟩)

lemma draw_pixel_congr (c d : Canvas) (p q : ℕ) (v : Px) (h : CanvasEq c d) :
    CanvasEq (c.draw_pixel p q v) (d.draw_pixel p q v) := by
  obtain ⟨hw, hh, hp⟩ := h
  refine ⟨hw, hh, ?_⟩
  intro a b ha hb
  show (if a = p ∧ b = q then v else c.pixel a b) = if a = p ∧ b = q then v else d.pixel a b
  split
  · rfl
  · exact hp a b ha hb

lemma drawSampleStep_congr (lo hi : ℚ) (color : Px) (x y : ℕ) (bb : GlyphBBox)
    (st st' : DrawState) (s : Sample) (h : CanvasEq st.canvas st'.canvas) :
    CanvasEq (drawSampleStep lo hi color x y bb st s).canvas
      (drawSampleStep lo hi color x y bb st' s).canvas := by
  obtain ⟨hw, hh, hp⟩ := h
  simp only [drawSampleStep]
  by_cases hg : 0 ≤ (s.gx : ℤ) + bb.minX + (x : ℤ) ∧
      (s.gx : ℤ) + bb.minX + (x : ℤ) < (st.canvas.width : ℤ) ∧
      0 ≤ (s.gy : ℤ) + bb.minY + (y : ℤ) ∧
      (s.gy : ℤ) + bb.minY + (y : ℤ) < (st.canvas.height : ℤ)
  · have hg' : 0 ≤ (s.gx : ℤ) + bb.minX + (x : ℤ) ∧
        (s.gx : ℤ) + bb.minX + (x : ℤ) < (st'.canvas.width : ℤ) ∧
        0 ≤ (s.gy : ℤ) + bb.minY + (y : ℤ) ∧
        (s.gy : ℤ) + bb.minY + (y : ℤ) < (st'.canvas.height : ℤ) := by
      rw [← hw, ← hh]; exact hg
    rw [if_pos hg, if_pos hg']
    have hpix : st.canvas.pixel ((s.gx : ℤ) + bb.minX + (x : ℤ)).toNat
        ((s.gy : ℤ) + bb.minY + (y : ℤ)).toNat =
        st'.canvas.pixel ((s.gx : ℤ) + bb.minX + (x : ℤ)).toNat
          ((s.gy : ℤ) + bb.minY + (y : ℤ)).toNat := by
      apply hp <;> omega
    show CanvasEq (st.canvas.draw_pixel _ _ _) (st'.canvas.draw_pixel _ _ _)
    rw [hpix]
    exact draw_pixel_congr _ _ _ _ _ ⟨hw, hh, hp⟩
  · have hg' : ¬(0 ≤ (s.gx : ℤ) + bb.minX + (x : ℤ) ∧
        (s.gx : ℤ) + bb.minX + (x : ℤ) < (st'.canvas.width : ℤ) ∧
        0 ≤ (s.gy : ℤ) + bb.minY + (y : ℤ) ∧
        (s.gy : ℤ) + bb.minY + (y : ℤ) < (st'.canvas.height : ℤ)) := by
      rw [← hw, ← hh]; exact hg
    rw [if_neg hg, if_neg hg']
    exact ⟨hw, hh, hp⟩

lemma foldl_drawSampleStep_congr (lo hi : ℚ) (color : Px) (x y : ℕ) (bb : GlyphBBox)
    (samples : List Sample) :
    ∀ st st' : DrawState, CanvasEq st.canvas st'.canvas →
      CanvasEq (samples.foldl (drawSampleStep lo hi color x y bb) st).canvas
        (samples.foldl (drawSampleStep lo hi color x y bb) st').canvas := by
  induction samples with
  | nil => intro st st' h; exact h
  | cons s samples ih =>
    intro st st' h
    exact ih _ _ (drawSampleStep_congr lo hi color x y bb st st' s h)

lemma foldl_drawGlyphStep_congr (lo hi : ℚ) (font : Font) (scale : Scale) (color : Px)
    (x y : ℕ) (gs : List PositionedGlyph) :
    ∀ st st' : DrawState, CanvasEq st.canvas st'.canvas →
      CanvasEq (gs.foldl (drawGlyphStep lo hi font scale color x y) st).canvas
        (gs.foldl (drawGlyphStep lo hi font scale color x y) st').canvas := by
  induction gs with
  | nil => intro st st' h; exact h
  | cons g gs ih =>
    intro st st' h
    refine ih _ _ ?_
    unfold drawGlyphStep
    cases font.pixel_bounding_box scale g.ch g.pos with
    | none => exact h
    | some bb => exact foldl_drawSampleStep_congr lo hi color x y bb _ st st' h

/-- Drawing respects observable canvas equality: surfaces that agree on dimensions and
on every in-range pixel are drawn identically (the compositor only ever reads
in-range pixels). -/
lemma draw_text_mut_congr (lo hi : ℚ) (font : Font) (color : Px) (x y : ℕ)
    (scale : Scale) (text : List Char) (c d : Canvas) (h : CanvasEq c d) :
    CanvasEq (draw_text_mut lo hi font color x y scale text c)
      (draw_text_mut lo hi font color x y scale text d) :=
  foldl_drawGlyphStep_congr lo hi font scale color x y (drawLayout font scale text)
    ⟨c, []⟩ ⟨d, []⟩ h

/-- C10: `draw_text` leaves the image passed by mutable reference unchanged, returns
exactly `draw_text_mut` applied to the input copied into a fresh buffer of the same
dimensions, and that returned image agrees (same dimensions, same in-range pixels)
with drawing directly onto the input. -/
theorem C10_draw_text (n : ℕ) (lo hi : ℚ) (font : Font) (color : Px) (x y : ℕ)
    (scale : Scale) (text : List Char) (image : Canvas) :
    (draw_text n lo hi font color x y scale text image).1 = image ∧
      (draw_text n lo hi font color x y scale text image).2 =
        draw_text_mut lo hi font color x y scale text
          (copy_from (Image_new image.width image.height n) image) ∧
      CanvasEq (draw_text n lo hi font color x y scale text image).2
        (draw_text_mut lo hi font color x y scale text image) := by
  refine ⟨rfl, rfl, ?_⟩
  apply draw_text_mut_congr
  refine ⟨rfl, rfl, ?_⟩
  intro a b ha hb
  show (if a < image.width ∧ b < image.height then image.pixel a b
    else (List.replicate n 0 : Px)) = image.pixel a b
  rw [if_pos ⟨ha, hb⟩]

/-- C9: for any text (including empty or whitespace-bearing text), both the
compositor's layout scan and the bounds calculator's layout produce exactly one
positioned glyph per input character. -/
theorem C9_glyph_count (font : Font) (scale : Scale) (text : List Char) :
    (drawLayout font scale text).length = text.length ∧
      (calcLayout font scale text).length = text.length :=
  ⟨drawLayoutAux_length font scale (font.ascent scale) text none 0,
   calcLayoutAux_length font scale (0, font.ascent scale) text none 0⟩

/-- C4 (counterexample): with advance width `10` and kerning `3/5` between the glyphs
of `a` and `b`, the claimed recurrence predicts glyph 1 at
`0 + round(10 + 3/5) = 11`, but the compositor's scan places glyph 1 at `10`: the
kerning of the pair `(g[0], g[1])` is not part of the increment that positions
`g[1]`. -/
theorem C4_counterexample :
    (drawLayout fontK scale1 ['a', 'b']).map (fun g => g.pos.1) = [0, 10] ∧
      rustRound (fontK.advance_width scale1 'a' +
        fontK.pair_kerning scale1 (fontK.glyphId 'a') (fontK.glyphId 'b')) = 11 ∧
      (10 : ℚ) ≠ 0 + 11 := by
  refine ⟨?_, ?_, by norm_num⟩
  · simp [drawLayout, drawLayoutAux, fontK, scale1]
    norm_num [rustRound]
  · simp [fontK, scale1]
    norm_num [rustRound]

/-- C4 (amended): in the compositor's layout the horizontal position of glyph 0 is
`0.0`, rounding is applied once to the whole increment, but the kerning folded into
the increment is the pair kerning between the *previous* two characters' glyphs:
`x_pos[i] = x_pos[i-1] + round(advance_width(g[i-1]) + pair_kerning(g[i-2], g[i-1]))`,
with no kerning term for `i = 1` — equivalently the position list satisfies the
recurrence `amendedXPos` starting from no previous character and position `0`. -/
theorem C4_amended_xpos (font : Font) (scale : Scale) (text : List Char) :
    (drawLayout font scale text).map (fun g => g.pos.1) =
      amendedXPos font scale none 0 text :=
  drawLayoutAux_map_xpos font scale (font.ascent scale) text none 0

end ImageprocText
